/-
Verification of the glyph-identity and character-map consistency core of the
FoundryTools repository (shallow embedding).

The embedding models a font as the state the core operates on: the glyph
order, the forward Unicode character map, and (for PostScript-flavored
fonts) the CFF charset and charstring storage.  Operations are translated
from `foundrytools/core/font.py`, `foundrytools/font.py` and the
`foundrytools/app/*.py` modules.  The helper module
`foundrytools/lib/unicode.py` (character-map rebuild helpers and the
production-name resolver) is not part of the available sources; the
definitions standing in for it are marked `Modelled from the spec:` and
follow the specification text (sections 4.2 and 4.3).
-/
import Mathlib

set_option autoImplicit false

/-! ### Hexadecimal rendering and parsing

Support for the `uniXXXX` / `uXXXXX` production-name convention
(spec section 4.3).  Rendering is fuel-based structural recursion so that
every definition evaluates by kernel reduction. -/

/-- The sixteen uppercase hexadecimal digit characters, in value order. -/
def hexDigitChars : List Char :=
  ['0', '1', '2', '3', '4', '5', '6', '7', '8', '9', 'A', 'B', 'C', 'D', 'E', 'F']

/-- The uppercase hexadecimal digit character for a value below 16. -/
def hexDigit (n : Nat) : Char :=
  hexDigitChars.getD n '0'

/-- The numeric value of an uppercase hexadecimal digit character. -/
def hexDigitVal (c : Char) : Nat :=
  hexDigitChars.indexOf c

/-- Uppercase hexadecimal digits of `n`, most significant first; `fuel`
bounds the recursion depth. -/
def hexCharsAux : Nat → Nat → List Char
  | 0, _ => []
  | fuel + 1, n =>
    if n < 16 then [hexDigit n]
    else hexCharsAux fuel (n / 16) ++ [hexDigit (n % 16)]

/-- Uppercase hexadecimal representation of `n`, without padding. -/
def hexChars (n : Nat) : List Char :=
  hexCharsAux (n + 1) n

/-- Uppercase hexadecimal representation of `n`, zero-padded on the left to
at least four digits. -/
def hexPad4 (n : Nat) : List Char :=
  List.replicate (4 - (hexChars n).length) '0' ++ hexChars n

/-- Numeric value of a list of uppercase hexadecimal digit characters. -/
def parseHex (l : List Char) : Nat :=
  l.foldl (fun a c => 16 * a + hexDigitVal c) 0

/-- Whether a character is an uppercase hexadecimal digit. -/
def isUpperHexDigit (c : Char) : Bool :=
  hexDigitChars.contains c

/-! ### The standard glyph-name table (external collaborator)

Spec section 6 lists the standard glyph name / Unicode table (the Adobe
Glyph List convention) as an external collaborator consumed by the
resolver.  It is embedded here as a finite fragment of that table:
enough registered entries for the claims, and faithful in that
`0x1F600` (and the other non-registered points used below) carry no
entry, exactly as in the external table. -/

/-- Fragment of the standard Adobe-Glyph-List code-point/name table. -/
def aglList : List (Nat × String) :=
  [(0x20, "space"), (0x41, "A"), (0x42, "B"), (0x43, "C"), (0x61, "a")]

/-- Registered standard name of a code point, when the table has one. -/
def aglName : List (Nat × String) → Nat → Option String
  | [], _ => none
  | p :: ps, c => if p.1 = c then some p.2 else aglName ps c

/-- Registered code point of a standard glyph name, when the table has one. -/
def aglCodepoint : List (Nat × String) → String → Option Nat
  | [], _ => none
  | p :: ps, g => if p.2 = g then some p.1 else aglCodepoint ps g

/-! ### The production-name resolver (spec section 4.3) -/

/-- Modelled from the spec: the production name computed from one Unicode
code point by `foundrytools/lib/unicode.py` (module absent from the
sources).  Policy order per spec section 4.3: the registered standard name
when the code point is in the Adobe-Glyph-List table; otherwise `uni` plus
the zero-padded uppercase-hexadecimal form for points up to `0xFFFF`;
otherwise `u` plus the uppercase-hexadecimal form. -/
def prodNameFromUni (c : Nat) : String :=
  (aglName aglList c).getD
    (if c ≤ 0xFFFF then String.mk (['u', 'n', 'i'] ++ hexPad4 c)
     else String.mk ('u' :: hexChars c))

/-- Modelled from the spec: the resolver `name_for` of spec section 4.3, a
pure total function of one optional code point; a missing code point
resolves to no name. -/
def production_name_for : Option Nat → Option String
  | none => none
  | some c => some (prodNameFromUni c)

/-- Modelled from the spec: the inverse partial function of the
`uniXXXX` / `uXXXXX` convention (spec section 4.3, "same convention,
reversed"), used when no character-map entry exists for a glyph name. -/
def parseUniName (g : String) : Option Nat :=
  let cs := g.data
  if cs.take 3 = ['u', 'n', 'i'] ∧ (cs.drop 3).length = 4 ∧
      (cs.drop 3).all isUpperHexDigit then
    some (parseHex (cs.drop 3))
  else if cs.take 1 = ['u'] ∧
      ((cs.drop 1).length = 5 ∨ (cs.drop 1).length = 6) ∧
      (cs.drop 1).all isUpperHexDigit ∧ 0xFFFF < parseHex (cs.drop 1) then
    some (parseHex (cs.drop 1))
  else none

/-- Modelled from the spec: recovery of a code point from a glyph name
alone, steps (b) and (c) of `build_forward_map` in spec section 4.2:
parse the name against the `uniXXXX` / `uXXXXX` convention, else consult
the standard glyph-name table. -/
def parseOrAgl (g : String) : Option Nat :=
  match parseUniName g with
  | some c => some c
  | none => aglCodepoint aglList g

/-! ### Facts about hexadecimal rendering -/

theorem hexDigitVal_hexDigit (n : Nat) (h : n < 16) :
    hexDigitVal (hexDigit n) = n := by
  interval_cases n <;> decide

theorem parseHex_append_singleton (l : List Char) (c : Char) :
    parseHex (l ++ [c]) = 16 * parseHex l + hexDigitVal c := by
  unfold parseHex
  rw [List.foldl_append]
  rfl

theorem parseHex_hexCharsAux (fuel : Nat) :
    ∀ n : Nat, n < fuel → parseHex (hexCharsAux fuel n) = n := by
  induction fuel with
  | zero => intro n h; exact absurd h (Nat.not_lt_zero n)
  | succ fuel ih =>
    intro n h
    unfold hexCharsAux
    by_cases h16 : n < 16
    · simp only [if_pos h16]
      unfold parseHex
      simp [List.foldl, hexDigitVal_hexDigit n h16]
    · simp only [if_neg h16]
      have hn0 : 0 < n := Nat.lt_of_lt_of_le (by norm_num) (Nat.le_of_not_lt h16)
      have hdiv : n / 16 < n := Nat.div_lt_self hn0 (by norm_num)
      have hfuel : n / 16 < fuel := Nat.lt_of_lt_of_le hdiv (Nat.lt_succ_iff.mp h)
      rw [parseHex_append_singleton, ih (n / 16) hfuel,
        hexDigitVal_hexDigit (n % 16) (Nat.mod_lt n (by norm_num))]
      omega

theorem parseHex_hexChars (n : Nat) : parseHex (hexChars n) = n :=
  parseHex_hexCharsAux (n + 1) n (Nat.lt_succ_self n)

theorem hexChars_injective {a b : Nat} (h : hexChars a = hexChars b) : a = b := by
  have ha := parseHex_hexChars a
  have hb := parseHex_hexChars b
  rw [h] at ha
  omega

theorem parseHex_replicate_zero_append (k : Nat) (l : List Char) :
    parseHex (List.replicate k '0' ++ l) = parseHex l := by
  induction k with
  | zero => rfl
  | succ k ih =>
    have : List.replicate (k + 1) '0' ++ l = '0' :: (List.replicate k '0' ++ l) := by
      simp [List.replicate_succ]
    rw [this]
    unfold parseHex at *
    simpa using ih

theorem parseHex_hexPad4 (n : Nat) : parseHex (hexPad4 n) = n := by
  unfold hexPad4
  rw [parseHex_replicate_zero_append, parseHex_hexChars]

theorem hexPad4_injective {a b : Nat} (h : hexPad4 a = hexPad4 b) : a = b := by
  have ha := parseHex_hexPad4 a
  have hb := parseHex_hexPad4 b
  rw [h] at ha
  omega

theorem hexDigit_mem (n : Nat) (h : n < 16) : hexDigit n ∈ hexDigitChars := by
  interval_cases n <;> decide

theorem hexCharsAux_mem_hexDigitChars (fuel : Nat) :
    ∀ n : Nat, ∀ c ∈ hexCharsAux fuel n, c ∈ hexDigitChars := by
  induction fuel with
  | zero => intro n c hc; simp [hexCharsAux] at hc
  | succ fuel ih =>
    intro n c hc
    unfold hexCharsAux at hc
    by_cases h16 : n < 16
    · simp only [if_pos h16, List.mem_singleton] at hc
      subst hc
      exact hexDigit_mem n h16
    · simp only [if_neg h16, List.mem_append, List.mem_singleton] at hc
      rcases hc with hc | hc
      · exact ih (n / 16) c hc
      · subst hc
        exact hexDigit_mem (n % 16) (Nat.mod_lt n (by norm_num))

theorem hexChars_mem (n : Nat) : ∀ c ∈ hexChars n, c ∈ hexDigitChars :=
  hexCharsAux_mem_hexDigitChars (n + 1) n

theorem hexCharsAux_ne_nil (fuel n : Nat) (h : n < fuel) :
    hexCharsAux fuel n ≠ [] := by
  cases fuel with
  | zero => exact absurd h (Nat.not_lt_zero n)
  | succ fuel =>
    unfold hexCharsAux
    by_cases h16 : n < 16
    · simp [h16]
    · simp only [if_neg h16]
      intro hcontra
      rcases List.append_eq_nil.mp hcontra with ⟨-, h2⟩
      exact List.cons_ne_nil _ _ h2

theorem hexChars_ne_nil (n : Nat) : hexChars n ≠ [] :=
  hexCharsAux_ne_nil (n + 1) n (Nat.lt_succ_self n)

/-- Length bound: a value below `16 ^ k` renders in at most `k` digits
(for `k ≥ 1`). -/
theorem hexCharsAux_length_le (fuel : Nat) :
    ∀ n k : Nat, n < fuel → n < 16 ^ (k + 1) →
      (hexCharsAux fuel n).length ≤ k + 1 := by
  induction fuel with
  | zero => intro n k h; exact absurd h (Nat.not_lt_zero n)
  | succ fuel ih =>
    intro n k h hk
    unfold hexCharsAux
    by_cases h16 : n < 16
    · simp [h16]
    · simp only [if_neg h16, List.length_append, List.length_singleton]
      have hn0 : 0 < n := by omega
      have hdiv : n / 16 < n := Nat.div_lt_self hn0 (by norm_num)
      have hfuel : n / 16 < fuel := by omega
      cases k with
      | zero =>
        exact absurd hk (by simpa using Nat.le_of_not_lt h16)
      | succ k =>
        have hdk : n / 16 < 16 ^ (k + 1) := by
          rw [Nat.div_lt_iff_lt_mul (by norm_num : (0:Nat) < 16)]
          calc n < 16 ^ (k + 2) := hk
          _ = 16 ^ (k + 1) * 16 := by ring
        have := ih (n / 16) k hfuel hdk
        omega

theorem hexChars_length_le_four {n : Nat} (h : n ≤ 0xFFFF) :
    (hexChars n).length ≤ 4 := by
  have : n < 16 ^ 4 := by norm_num at h ⊢; omega
  exact hexCharsAux_length_le (n + 1) n 3 (Nat.lt_succ_self n) this

/-- Length bound: a value of at least `16 ^ k` needs more than `k` digits. -/
theorem hexCharsAux_length_ge (fuel : Nat) :
    ∀ n k : Nat, n < fuel → 16 ^ k ≤ n →
      k + 1 ≤ (hexCharsAux fuel n).length := by
  induction fuel with
  | zero => intro n k h; exact absurd h (Nat.not_lt_zero n)
  | succ fuel ih =>
    intro n k h hk
    unfold hexCharsAux
    by_cases h16 : n < 16
    · cases k with
      | zero => simp [h16]
      | succ k =>
        exfalso
        have : 16 ≤ 16 ^ (k + 1) := by
          calc (16:Nat) = 16 ^ 1 := by norm_num
          _ ≤ 16 ^ (k + 1) := Nat.pow_le_pow_right (by norm_num) (by omega)
        omega
    · simp only [if_neg h16, List.length_append, List.length_singleton]
      cases k with
      | zero => omega
      | succ k =>
        have hn0 : 0 < n := by omega
        have hdiv : n / 16 < n := Nat.div_lt_self hn0 (by norm_num)
        have hfuel : n / 16 < fuel := by omega
        have hdk : 16 ^ k ≤ n / 16 := by
          rw [Nat.le_div_iff_mul_le (by norm_num : (0:Nat) < 16)]
          calc 16 ^ k * 16 = 16 ^ (k + 1) := by ring
          _ ≤ n := hk
        have := ih (n / 16) k hfuel hdk
        omega

theorem hexChars_length_ge_five {n : Nat} (h : 0xFFFF < n) :
    5 ≤ (hexChars n).length := by
  have : 16 ^ 4 ≤ n := by norm_num at h ⊢; omega
  exact hexCharsAux_length_ge (n + 1) n 4 (Nat.lt_succ_self n) this

theorem hexPad4_length {n : Nat} (h : n ≤ 0xFFFF) : (hexPad4 n).length = 4 := by
  unfold hexPad4
  have h1 := hexChars_length_le_four h
  have h2 : (hexChars n).length ≠ 0 := by
    intro hc
    exact hexChars_ne_nil n (List.length_eq_zero.mp hc)
  simp only [List.length_append, List.length_replicate]
  omega

/-! ### Injectivity of the production-name resolver -/

theorem aglName_mem {t : List (Nat × String)} {c : Nat} {n : String}
    (h : aglName t c = some n) : (c, n) ∈ t := by
  induction t with
  | nil => simp [aglName] at h
  | cons p ps ih =>
    unfold aglName at h
    by_cases hp : p.1 = c
    · simp only [if_pos hp] at h
      injection h with h
      obtain ⟨a, b⟩ := p
      simp only at hp h
      subst hp
      subst h
      exact List.mem_cons_self _ _
    · simp only [if_neg hp] at h
      exact List.mem_cons_of_mem p (ih h)

theorem aglCodepoint_mem {t : List (Nat × String)} {g : String} {c : Nat}
    (h : aglCodepoint t g = some c) : (c, g) ∈ t := by
  induction t with
  | nil => simp [aglCodepoint] at h
  | cons p ps ih =>
    unfold aglCodepoint at h
    by_cases hp : p.2 = g
    · simp only [if_pos hp] at h
      injection h with h
      obtain ⟨a, b⟩ := p
      simp only at hp h
      subst hp
      subst h
      exact List.mem_cons_self _ _
    · simp only [if_neg hp] at h
      exact List.mem_cons_of_mem p (ih h)

/-- Registered names in the table fragment are short (at most five
characters); the generated `uni` / `u` forms are longer. -/
theorem aglList_names_short : ∀ p ∈ aglList, p.2.length ≤ 5 := by decide

theorem aglList_val_inj :
    ∀ p ∈ aglList, ∀ q ∈ aglList, p.2 = q.2 → p.1 = q.1 := by decide

theorem string_mk_length (l : List Char) : (String.mk l).length = l.length := rfl

theorem uniForm_length {c : Nat} (h : c ≤ 0xFFFF) :
    (String.mk (['u', 'n', 'i'] ++ hexPad4 c)).length = 7 := by
  rw [string_mk_length, List.length_append, hexPad4_length h]
  rfl

theorem uForm_length {c : Nat} (h : 0xFFFF < c) :
    6 ≤ (String.mk ('u' :: hexChars c)).length := by
  rw [string_mk_length, List.length_cons]
  have := hexChars_length_ge_five h
  omega

theorem prodNameFromUni_of_agl {c : Nat} {n : String}
    (h : aglName aglList c = some n) : prodNameFromUni c = n := by
  unfold prodNameFromUni
  rw [h]
  rfl

theorem prodNameFromUni_of_bmp {c : Nat} (h1 : aglName aglList c = none)
    (h2 : c ≤ 0xFFFF) :
    prodNameFromUni c = String.mk (['u', 'n', 'i'] ++ hexPad4 c) := by
  unfold prodNameFromUni
  rw [h1, if_pos h2]
  rfl

theorem prodNameFromUni_of_high {c : Nat} (h1 : aglName aglList c = none)
    (h2 : ¬c ≤ 0xFFFF) :
    prodNameFromUni c = String.mk ('u' :: hexChars c) := by
  unfold prodNameFromUni
  rw [h1, if_neg h2]
  rfl

/-- A `uni`-prefixed form is never a `u`-plus-digits form: its second
character `n` is not a hexadecimal digit. -/
theorem uniForm_ne_uForm {c1 c2 : Nat} :
    String.mk (['u', 'n', 'i'] ++ hexPad4 c1) ≠ String.mk ('u' :: hexChars c2) := by
  intro h
  have hdata : ['u', 'n', 'i'] ++ hexPad4 c1 = 'u' :: hexChars c2 :=
    congrArg String.data h
  have hn : 'n' ∈ hexChars c2 := by
    cases hcs : hexChars c2 with
    | nil => exact absurd hcs (hexChars_ne_nil c2)
    | cons d ds =>
      rw [hcs] at hdata
      have hd : 'n' = d := by
        have := congrArg (fun l => List.get? l 1) hdata
        simpa using this
      rw [hd]
      exact List.mem_cons_self _ _
  have : 'n' ∈ hexDigitChars := hexChars_mem c2 'n' hn
  simp [hexDigitChars] at this

/-- The production-name resolver is injective on code points. -/
theorem prodNameFromUni_injective {c1 c2 : Nat}
    (h : prodNameFromUni c1 = prodNameFromUni c2) : c1 = c2 := by
  cases h1 : aglName aglList c1 with
  | some n1 =>
    cases h2 : aglName aglList c2 with
    | some n2 =>
      rw [prodNameFromUni_of_agl h1, prodNameFromUni_of_agl h2] at h
      subst h
      exact aglList_val_inj (c1, n1) (aglName_mem h1) (c2, n1) (aglName_mem h2) rfl
    | none =>
      exfalso
      have hlen1 : n1.length ≤ 5 := aglList_names_short (c1, n1) (aglName_mem h1)
      rw [prodNameFromUni_of_agl h1] at h
      by_cases hc2 : c2 ≤ 0xFFFF
      · rw [prodNameFromUni_of_bmp h2 hc2] at h
        have := uniForm_length hc2
        rw [← h] at this
        omega
      · rw [prodNameFromUni_of_high h2 hc2] at h
        have := uForm_length (Nat.lt_of_not_le hc2)
        rw [← h] at this
        omega
  | none =>
    cases h2 : aglName aglList c2 with
    | some n2 =>
      exfalso
      have hlen2 : n2.length ≤ 5 := aglList_names_short (c2, n2) (aglName_mem h2)
      rw [prodNameFromUni_of_agl h2] at h
      by_cases hc1 : c1 ≤ 0xFFFF
      · rw [prodNameFromUni_of_bmp h1 hc1] at h
        have := uniForm_length hc1
        rw [h] at this
        omega
      · rw [prodNameFromUni_of_high h1 hc1] at h
        have := uForm_length (Nat.lt_of_not_le hc1)
        rw [h] at this
        omega
    | none =>
      by_cases hc1 : c1 ≤ 0xFFFF
      · by_cases hc2 : c2 ≤ 0xFFFF
        · rw [prodNameFromUni_of_bmp h1 hc1, prodNameFromUni_of_bmp h2 hc2] at h
          have hdata : ['u', 'n', 'i'] ++ hexPad4 c1 = ['u', 'n', 'i'] ++ hexPad4 c2 :=
            congrArg String.data h
          exact hexPad4_injective (List.append_cancel_left hdata)
        · exact absurd
            (by rw [prodNameFromUni_of_bmp h1 hc1, prodNameFromUni_of_high h2 hc2] at h
                exact h)
            uniForm_ne_uForm
      · by_cases hc2 : c2 ≤ 0xFFFF
        · exact absurd
            (by rw [prodNameFromUni_of_high h1 hc1, prodNameFromUni_of_bmp h2 hc2] at h
                exact h.symm)
            uniForm_ne_uForm
        · rw [prodNameFromUni_of_high h1 hc1, prodNameFromUni_of_high h2 hc2] at h
          have hdata : 'u' :: hexChars c1 = 'u' :: hexChars c2 :=
            congrArg String.data h
          injection hdata with hhd htl
          exact hexChars_injective htl

/-! ### Claim C6: the production-name resolver policy -/

/-- C6: the production-name resolver is a pure total function of one
optional Unicode code point: the registered Adobe-Glyph-List name when the
code point is registered; otherwise `uni` plus the zero-padded
uppercase-hexadecimal representation for code points up to `0xFFFF`;
otherwise `u` plus the uppercase-hexadecimal representation; and no name
for a missing code point.  In particular `0x0041` resolves to `A` and
`0x1F600` to `u1F600`. -/
theorem c6_production_name_policy :
    (∀ c n, aglName aglList c = some n → production_name_for (some c) = some n) ∧
    (∀ c, aglName aglList c = none → c ≤ 0xFFFF →
      production_name_for (some c) = some (String.mk (['u', 'n', 'i'] ++ hexPad4 c))) ∧
    (∀ c, aglName aglList c = none → 0xFFFF < c →
      production_name_for (some c) = some (String.mk ('u' :: hexChars c))) ∧
    production_name_for none = none ∧
    production_name_for (some 0x0041) = some "A" ∧
    production_name_for (some 0x1F600) = some "u1F600" := by
  refine ⟨?_, ?_, ?_, rfl, ?_, ?_⟩
  · intro c n h
    simp [production_name_for, prodNameFromUni_of_agl h]
  · intro c h1 h2
    simp [production_name_for, prodNameFromUni_of_bmp h1 h2]
  · intro c h1 h2
    simp [production_name_for, prodNameFromUni_of_high h1 (Nat.not_le_of_lt h2)]
  · decide
  · decide

/-- Witness for C6 at concrete inputs: a registered point, an unregistered
point in the basic plane, and an unregistered point above it. -/
theorem c6_production_name_policy_w :
    production_name_for (some 0x0042) = some "B" ∧
    production_name_for (some 0x002E) = some (String.mk (['u', 'n', 'i'] ++ hexPad4 0x002E)) ∧
    production_name_for (some 0x1F601) = some (String.mk ('u' :: hexChars 0x1F601)) :=
  ⟨c6_production_name_policy.1 0x0042 "B" (by decide),
   c6_production_name_policy.2.1 0x002E (by decide) (by decide),
   c6_production_name_policy.2.2.1 0x1F601 (by decide) (by decide)⟩

/-! ### The font state

The state the glyph-identity core operates on: glyph order, forward
Unicode character map (`cmap` subtable content, code point to glyph
name), and — for PostScript-flavored fonts — the CFF charset and the
charstring storage (charstring bodies abstracted as numbers, values
optional to reflect Python `dict.get`).  Spec section 3. -/

structure Font where
  glyph_order : List String
  cmap : List (Nat × String)
  charset : List String
  char_strings : List (String × Option Nat)
  is_ps : Bool
deriving Repr, DecidableEq

/-- Errors raised by the glyph operations (each variant is one distinct
`raise` site in the source; all are wrapped in `FontError` there). -/
inductive GlyphOpError where
  | notFound (g : String)
  | alreadyExists (g : String)
  | noGlyphsProvided
deriving Repr, DecidableEq

instance {ε α : Type} [DecidableEq ε] [DecidableEq α] : DecidableEq (Except ε α) :=
  fun x y =>
  match x, y with
  | .error a, .error b => decidable_of_iff (a = b) (by simp)
  | .ok a, .ok b => decidable_of_iff (a = b) (by simp)
  | .error _, .ok _ => isFalse (by simp)
  | .ok _, .error _ => isFalse (by simp)

/-- First glyph name stored for a code point (forward cmap lookup). -/
def lookupCmap : List (Nat × String) → Nat → Option String
  | [], _ => none
  | p :: ps, c => if p.1 = c then some p.2 else lookupCmap ps c

/-- First code point stored for a glyph name (reversed cmap lookup).
Modelled from the spec: `get_uni_str` of `foundrytools/lib/unicode.py`
(module absent from the sources); spec section 4.4 resolves a glyph's
Unicode value from the existing reversed cmap, the font's actual mapping
being authoritative. -/
def get_uni_str : List (Nat × String) → String → Option Nat
  | [], _ => none
  | p :: ps, g => if p.2 = g then some p.1 else get_uni_str ps g

/-- Whether some cmap entry already binds the code point `c`. -/
def hasKey (m : List (Nat × String)) (c : Nat) : Bool :=
  m.any (fun p => p.1 == c)

/-- Modelled from the spec: one recovery step of `build_forward_map`
(spec section 4.2): (a) the existing reversed cmap, else (b) the name
parsed against the `uniXXXX` / `uXXXXX` convention, else (c) the standard
glyph-name table. -/
def recoverUni (rc : List (Nat × String)) (g : String) : Option Nat :=
  match get_uni_str rc g with
  | some c => some c
  | none => parseOrAgl g

/-- Add a recovered entry unless its code point is already bound (an
existing binding is never silently overwritten, spec section 4.2). -/
def addEntry (m : List (Nat × String)) (c : Nat) (g : String) :
    List (Nat × String) :=
  if hasKey m c then m else m ++ [(c, g)]

/-- One step of the forward-map construction fold. -/
def bfmStep (rc : List (Nat × String)) (m : List (Nat × String)) (g : String) :
    List (Nat × String) :=
  match recoverUni rc g with
  | none => m
  | some c => addEntry m c g

/-- Modelled from the spec: `_cmap_from_glyph_names` /
`build_forward_map` of spec section 4.2 — for each candidate glyph name
recover a Unicode value ((a) existing reversed cmap, (b) name convention,
(c) standard table); glyphs yielding no value are excluded. -/
def buildForwardMap (rc : List (Nat × String)) (names : List String) :
    List (Nat × String) :=
  names.foldl (bfmStep rc) []

/-- One step of the merge fold of `update_character_map`: a source entry
whose code point is already present is a conflict and is dropped. -/
def ucmStep (acc : List (Nat × String) × List (Nat × String) × List (Nat × String))
    (p : Nat × String) :
    List (Nat × String) × List (Nat × String) × List (Nat × String) :=
  if hasKey acc.1 p.1 then (acc.1, acc.2.1, acc.2.2 ++ [p])
  else (acc.1 ++ [p], acc.2.1 ++ [p], acc.2.2)

/-- Modelled from the spec: `update_character_map` of
`foundrytools/lib/unicode.py` (absent from the sources); spec section 4.2
`merge`: merges source entries into target, returning the merged map, the
newly added entries and the dropped conflicts (target wins). -/
def update_character_map (source target : List (Nat × String)) :
    List (Nat × String) × List (Nat × String) × List (Nat × String) :=
  source.foldl ucmStep (target, [], [])

/-- Modelled from the spec: `get_mapped_and_unmapped_glyphs` — partitions
the current glyph order by whether at least one cmap entry targets the
name (spec section 4.2). -/
def get_mapped_and_unmapped_glyphs (f : Font) : List String × List String :=
  (f.glyph_order.filter (fun g => f.cmap.any (fun p => p.2 == g)),
   f.glyph_order.filter (fun g => f.cmap.all (fun p => p.2 != g)))

/-- `Font.rebuild_cmap` (`foundrytools/core/font.py`, lines 995-1018;
identically `foundrytools/font.py`, lines 1128-1151): choose target and
source maps according to `remap_all`, merge, and install the merged map
as the font's character map (`setup_character_map` install step, spec
section 4.2).  Returns the updated font and the list of newly remapped
`(code point, glyph name)` pairs. -/
def rebuild_cmap (f : Font) (remap_all : Bool) :
    Font × List (Nat × String) :=
  let unmapped := (get_mapped_and_unmapped_glyphs f).2
  let target := if remap_all then [] else f.cmap
  let source := buildForwardMap f.cmap (if remap_all then f.glyph_order else unmapped)
  let r := update_character_map source target
  ({ f with cmap := r.1 }, r.2.1)

/-- The single-substitution renaming function built by `rename_glyph`'s
loop: `new_name` where the glyph equals `old_name`, identity elsewhere. -/
def renameFun (old_name new_name g : String) : String :=
  if g = old_name then new_name else g

/-- Lookup in a Python dict built from a pair list: a later binding for
the same key overwrites an earlier one; a missing key falls back to the
default `g`. -/
def dictGet (m : List (String × String)) (g : String) : String :=
  m.foldl (fun acc p => if p.1 = g then p.2 else acc) g

/-- The rename mapping `dict(zip(old_order, new_order))` used by
`rename_glyphs` and `set_production_names`, as a function (later
duplicate keys win, as in a Python dict; names outside the order are
unchanged; `zip` truncates at the shorter list). -/
def renameOf (old_order new_order : List String) (g : String) : String :=
  dictGet (old_order.zip new_order) g

/-- The external rename primitive `PostProcessor.rename_glyphs` (ufo2ft):
re-keys every name-indexed structure of the font under the rename map
(glyph order, cmap targets, CFF charset and charstring keys); spec
sections 4.4 and 6. -/
def applyRenameMap (ren : String → String) (f : Font) : Font :=
  { glyph_order := f.glyph_order.map ren,
    cmap := f.cmap.map (fun p => (p.1, ren p.2)),
    charset := f.charset.map ren,
    char_strings := f.char_strings.map (fun p => (ren p.1, p.2)),
    is_ps := f.is_ps }

/-- `Font.rename_glyph` (`foundrytools/core/font.py`, lines 1020-1053;
identically `foundrytools/app/rename_glyph.py`): precondition checks
before any mutation, then the single-substitution order, the external
rename primitive, and a full character-map rebuild.  The font component
of the result is the state after the call (unchanged on error, the error
being raised before any mutation). -/
def rename_glyph (f : Font) (old_name new_name : String) :
    Font × Except GlyphOpError Bool :=
  if old_name ∉ f.glyph_order then (f, .error (.notFound old_name))
  else if new_name ∈ f.glyph_order then (f, .error (.alreadyExists new_name))
  else
    let new_glyph_order := f.glyph_order.map (renameFun old_name new_name)
    let f1 := applyRenameMap (renameFun old_name new_name) f
    let f2 := (rebuild_cmap f1 true).1
    (f2, .ok (decide (new_glyph_order ≠ f.glyph_order)))

/-- `Font.rename_glyphs` (`foundrytools/core/font.py`, lines 1055-1073;
identically `foundrytools/app/rename_glyphs.py`): no-op when the new
order equals the current one; otherwise apply the zip rename map and
rebuild the character map fully.  No validation of the new order is
performed. -/
def rename_glyphs (f : Font) (new_glyph_order : List String) : Font × Bool :=
  if new_glyph_order = f.glyph_order then (f, false)
  else
    let ren := renameOf f.glyph_order new_glyph_order
    ((rebuild_cmap (applyRenameMap ren f) true).1, true)

/-- The per-glyph decision of `set_production_names`: the production name
computed from the glyph's Unicode value, kept as the original name when
no value is found, the production name equals the current name, or it
collides with an existing name in the order. -/
def prodNameChoice (f : Font) (g : String) : String :=
  match production_name_for (get_uni_str f.cmap g) with
  | none => g
  | some p => if p = g ∨ p ∈ f.glyph_order then g else p

/-- The `renamed_glyphs` accumulator of `set_production_names`: the
`(old name, production name)` pairs of the glyphs whose name changes,
in glyph-order position. -/
def renamedGlyphsOf (f : Font) : List (String × String) :=
  f.glyph_order.filterMap (fun g =>
    if prodNameChoice f g = g then none else some (g, prodNameChoice f g))

/-- `Font.set_production_names` (`foundrytools/core/font.py`, lines
1075-1126; identically `foundrytools/app/set_production_names.py`): walk
the old glyph order computing production names from the reversed cmap,
collect the renamed pairs, return early without mutation when nothing
qualifies, otherwise apply the zip rename map and rebuild fully. -/
def set_production_names (f : Font) : Font × List (String × String) :=
  if renamedGlyphsOf f = [] then (f, [])
  else
    ((rebuild_cmap (applyRenameMap
      (renameOf f.glyph_order (f.glyph_order.map (prodNameChoice f))) f) true).1,
     renamedGlyphsOf f)

/-- Python `dict.get` over the charstring storage. -/
def lookupCS (cs : List (String × Option Nat)) (k : String) : Option Nat :=
  match cs.find? (fun p => p.1 == k) with
  | some p => p.2
  | none => none

/-- `Font.sort_glyphs` (`foundrytools/core/font.py`, lines 1128-1175):
the sort-key computation is delegated to the external Unicode-database
name sorter (spec section 6), taken here as the parameter `oracle`.  The
operation owns forcing `.notdef` to index 0, the no-op short-circuit, and
— for PostScript-flavored fonts — re-keying the CFF charset and
charstring storage to the new order in the same pass (the external
`reorderGlyphs` primitive, modelled as installing the new order, leaves
them stale). -/
def sort_glyphs (f : Font) (oracle : List String → List String) : Font × Bool :=
  let old := f.glyph_order
  let sorted := oracle old
  let new_glyph_order :=
    if ".notdef" ∈ sorted then ".notdef" :: sorted.erase ".notdef" else sorted
  if old = new_glyph_order then (f, false)
  else
    let f1 := { f with glyph_order := new_glyph_order }
    let f2 :=
      if f.is_ps then
        { f1 with
          charset := new_glyph_order,
          char_strings :=
            new_glyph_order.map (fun k => (k, lookupCS f.char_strings k)) }
      else f1
    (f2, true)

/-- Conversion of requested glyph ids to glyph names through the current
order; out-of-range ids (negative included) contribute nothing. -/
def idsToNames (order : List String) (ids : List Int) : List String :=
  ids.filterMap (fun i =>
    if 0 ≤ i ∧ i.toNat < order.length then order.get? i.toNat else none)

/-- `Font.remove_glyphs` (`foundrytools/font.py`, lines 1153-1196;
identically `foundrytools/app/remove_glyphs.py`): error when neither
names nor ids are provided; convert in-range ids to names and union with
the explicit names; return empty without invoking the subsetter when the
union is empty; otherwise hand the complement to the external subsetting
primitive (parameter `subsetter`, which yields the post-subset glyph
order) and return the difference between the old and new orders. -/
def remove_glyphs (f : Font) (names : List String) (ids : List Int)
    (subsetter : List String → List String) :
    Font × Except GlyphOpError (List String) :=
  if names = [] ∧ ids = [] then (f, .error .noGlyphsProvided)
  else
    let to_remove := names ++ idsToNames f.glyph_order ids
    if to_remove = [] then (f, .ok [])
    else
      let remaining := f.glyph_order.filter (fun g => decide (g ∉ to_remove))
      let new_order := subsetter remaining
      ({ f with glyph_order := new_order },
       .ok (f.glyph_order.filter (fun g => decide (g ∉ new_order))))

/-! ### Lemmas on cmap association lists -/

theorem lookupCmap_mem {m : List (Nat × String)} {c : Nat} {g : String}
    (h : lookupCmap m c = some g) : (c, g) ∈ m := by
  induction m with
  | nil => simp [lookupCmap] at h
  | cons p ps ih =>
    unfold lookupCmap at h
    by_cases hp : p.1 = c
    · simp only [if_pos hp] at h
      injection h with h
      obtain ⟨a, b⟩ := p
      simp only at hp h
      subst hp
      subst h
      exact List.mem_cons_self _ _
    · simp only [if_neg hp] at h
      exact List.mem_cons_of_mem p (ih h)

theorem get_uni_str_mem {m : List (Nat × String)} {g : String} {c : Nat}
    (h : get_uni_str m g = some c) : (c, g) ∈ m := by
  induction m with
  | nil => simp [get_uni_str] at h
  | cons p ps ih =>
    unfold get_uni_str at h
    by_cases hp : p.2 = g
    · simp only [if_pos hp] at h
      injection h with h
      obtain ⟨a, b⟩ := p
      simp only at hp h
      subst hp
      subst h
      exact List.mem_cons_self _ _
    · simp only [if_neg hp] at h
      exact List.mem_cons_of_mem p (ih h)

theorem get_uni_str_eq_none {m : List (Nat × String)} {g : String} :
    get_uni_str m g = none ↔ ∀ p ∈ m, p.2 ≠ g := by
  induction m with
  | nil => simp [get_uni_str]
  | cons p ps ih =>
    unfold get_uni_str
    by_cases hp : p.2 = g
    · simp [hp]
    · simp [hp, ih]

/-- With a functional reverse relation (each glyph mapped from at most one
code point), membership determines the reversed-cmap lookup. -/
theorem get_uni_str_unique {m : List (Nat × String)} {c : Nat} {g : String}
    (hinj : ∀ p ∈ m, ∀ q ∈ m, p.2 = q.2 → p.1 = q.1)
    (hmem : (c, g) ∈ m) : get_uni_str m g = some c := by
  induction m with
  | nil => simp at hmem
  | cons p ps ih =>
    unfold get_uni_str
    by_cases hp : p.2 = g
    · simp only [if_pos hp]
      have h1 : p.1 = c := hinj p (List.mem_cons_self p ps) (c, g) hmem hp
      rw [h1]
    · simp only [if_neg hp]
      rcases List.mem_cons.mp hmem with hmem | hmem
      · exact absurd (congrArg Prod.snd hmem.symm) hp
      · exact ih
          (fun a ha b hb => hinj a (List.mem_cons_of_mem p ha) b (List.mem_cons_of_mem p hb))
          hmem

theorem hasKey_false_iff {m : List (Nat × String)} {c : Nat} :
    hasKey m c = false ↔ ∀ p ∈ m, p.1 ≠ c := by
  unfold hasKey
  rw [← Bool.not_eq_true, List.any_eq_true]
  push_neg
  constructor
  · intro h p hp
    have := h p hp
    simpa using this
  · intro h p hp
    simpa using h p hp

theorem lookupCmap_append_left {m t : List (Nat × String)} {c : Nat} {g : String}
    (h : lookupCmap m c = some g) : lookupCmap (m ++ t) c = some g := by
  induction m with
  | nil => simp [lookupCmap] at h
  | cons p ps ih =>
    rw [List.cons_append]
    unfold lookupCmap at h ⊢
    by_cases hp : p.1 = c
    · simpa [hp] using h
    · simp only [if_neg hp] at h ⊢
      exact ih h

theorem lookupCmap_append_fresh {m t : List (Nat × String)} {c : Nat} {g : String}
    (h : hasKey m c = false) : lookupCmap (m ++ (c, g) :: t) c = some g := by
  induction m with
  | nil => simp [lookupCmap]
  | cons p ps ih =>
    have hp : p.1 ≠ c := (hasKey_false_iff.mp h) p (List.mem_cons_self p ps)
    have hps : hasKey ps c = false :=
      hasKey_false_iff.mpr (fun q hq => (hasKey_false_iff.mp h) q (List.mem_cons_of_mem p hq))
    simpa [lookupCmap, hp] using ih hps

/-! ### Lemmas on the rename helpers -/

theorem renameFun_inj_on {order : List String} {o n : String}
    (hnew : n ∉ order) :
    ∀ a ∈ order, ∀ b ∈ order, renameFun o n a = renameFun o n b → a = b := by
  intro a ha b hb hab
  unfold renameFun at hab
  by_cases hao : a = o
  · by_cases hbo : b = o
    · rw [hao, hbo]
    · rw [if_pos hao, if_neg hbo] at hab
      exact absurd (hab ▸ hb) hnew
  · by_cases hbo : b = o
    · rw [if_neg hao, if_pos hbo] at hab
      exact absurd (hab ▸ ha) hnew
    · rwa [if_neg hao, if_neg hbo] at hab

theorem map_renameFun_ne {order : List String} {o n : String}
    (hold : o ∈ order) (hnew : n ∉ order) :
    order.map (renameFun o n) ≠ order := by
  intro h
  have : renameFun o n o ∈ order.map (renameFun o n) := List.mem_map_of_mem _ hold
  rw [h] at this
  simp only [renameFun, if_pos rfl] at this
  exact hnew this

theorem dictGet_of_not_mem_keys {m : List (String × String)} {g : String}
    (h : ∀ p ∈ m, p.1 ≠ g) : ∀ a, m.foldl (fun acc p => if p.1 = g then p.2 else acc) a = a := by
  induction m with
  | nil => intro a; rfl
  | cons p ps ih =>
    intro a
    have hp : p.1 ≠ g := h p (List.mem_cons_self p ps)
    simp only [List.foldl_cons, if_neg hp]
    exact ih (fun q hq => h q (List.mem_cons_of_mem p hq)) a

/-- Applying the `dict(zip(old, new))` rename map across a duplicate-free
old order of matching length yields exactly the new order. -/
theorem map_renameOf {old new : List String} (hnd : old.Nodup)
    (hlen : old.length = new.length) :
    old.map (renameOf old new) = new := by
  induction old generalizing new with
  | nil =>
    cases new with
    | nil => rfl
    | cons b bs => simp at hlen
  | cons a as ih =>
    cases new with
    | nil => simp at hlen
    | cons b bs =>
      have hnda : a ∉ as := (List.nodup_cons.mp hnd).1
      have hnds : as.Nodup := (List.nodup_cons.mp hnd).2
      have hlen' : as.length = bs.length := by simpa using hlen
      have hzip_keys : ∀ p ∈ as.zip bs, p.1 ≠ a := by
        intro p hp hpa
        exact hnda (hpa ▸ (List.of_mem_zip hp).1)
      have hhead : renameOf (a :: as) (b :: bs) a = b := by
        unfold renameOf dictGet
        simp only [List.zip_cons_cons, List.foldl_cons, if_pos rfl]
        exact dictGet_of_not_mem_keys hzip_keys b
      have htail : ∀ g ∈ as, renameOf (a :: as) (b :: bs) g = renameOf as bs g := by
        intro g hg
        have hga : a ≠ g := fun hc => hnda (hc ▸ hg)
        unfold renameOf dictGet
        simp [List.zip_cons_cons, hga]
      calc (a :: as).map (renameOf (a :: as) (b :: bs))
          = renameOf (a :: as) (b :: bs) a :: as.map (renameOf (a :: as) (b :: bs)) := by
            simp
        _ = b :: as.map (renameOf as bs) := by
            rw [hhead, List.map_congr_left htail]
        _ = b :: bs := by rw [ih hnds hlen']

theorem keysNodup_val_unique {m : List (Nat × String)} {c : Nat} {a b : String}
    (hnd : (m.map Prod.fst).Nodup) (ha : (c, a) ∈ m) (hb : (c, b) ∈ m) : a = b := by
  induction m with
  | nil => simp at ha
  | cons p ps ih =>
    rw [List.map_cons, List.nodup_cons] at hnd
    obtain ⟨hpk, hnd'⟩ := hnd
    rcases List.mem_cons.mp ha with ha | ha <;> rcases List.mem_cons.mp hb with hb | hb
    · exact congrArg Prod.snd (ha.trans hb.symm)
    · exfalso
      have hc : c ∈ ps.map Prod.fst := List.mem_map_of_mem Prod.fst hb
      have hp1 : c = p.1 := congrArg Prod.fst ha
      exact hpk (hp1 ▸ hc)
    · exfalso
      have hc : c ∈ ps.map Prod.fst := List.mem_map_of_mem Prod.fst ha
      have hp1 : c = p.1 := congrArg Prod.fst hb
      exact hpk (hp1 ▸ hc)
    · exact ih hnd' ha hb

/-! ### Lemmas on the forward-map construction and the merge -/

theorem bfmStep_shape (rc : List (Nat × String)) (acc : List (Nat × String))
    (g : String) : ∃ s, bfmStep rc acc g = acc ++ s := by
  unfold bfmStep
  cases recoverUni rc g with
  | none => exact ⟨[], (List.append_nil acc).symm⟩
  | some c =>
    unfold addEntry
    by_cases h : hasKey acc c
    · exact ⟨[], by simp [h]⟩
    · exact ⟨[(c, g)], by simp [h]⟩

theorem bfm_foldl_extend (rc : List (Nat × String)) :
    ∀ (names : List String) (acc : List (Nat × String)),
      ∃ t, names.foldl (bfmStep rc) acc = acc ++ t := by
  intro names
  induction names with
  | nil => exact fun acc => ⟨[], (List.append_nil acc).symm⟩
  | cons g ns ih =>
    intro acc
    obtain ⟨s, hs⟩ := bfmStep_shape rc acc g
    obtain ⟨t, ht⟩ := ih (bfmStep rc acc g)
    exact ⟨s ++ t, by rw [List.foldl_cons, ht, hs, List.append_assoc]⟩

theorem bfm_foldl_lookup_preserve (rc : List (Nat × String))
    (names : List String) (acc : List (Nat × String)) {c : Nat} {x : String}
    (h : lookupCmap acc c = some x) :
    lookupCmap (names.foldl (bfmStep rc) acc) c = some x := by
  obtain ⟨t, ht⟩ := bfm_foldl_extend rc names acc
  rw [ht]
  exact lookupCmap_append_left h

theorem hasKey_append_singleton (m : List (Nat × String)) (q : Nat × String)
    (c : Nat) : hasKey (m ++ [q]) c = (hasKey m c || (q.1 == c)) := by
  unfold hasKey
  rw [List.any_append]
  simp

/-- Main lemma on the forward-map fold: a glyph `x` whose recovered code
point `c` is not yet bound, and such that no other processed glyph
recovers `c`, ends up as the binding of `c`. -/
theorem bfm_foldl_lookup (rc : List (Nat × String)) (c : Nat) (x : String) :
    ∀ (names : List String) (acc : List (Nat × String)),
      hasKey acc c = false →
      x ∈ names →
      recoverUni rc x = some c →
      (∀ y ∈ names, y ≠ x → ∀ c', recoverUni rc y = some c' → c' ≠ c) →
      lookupCmap (names.foldl (bfmStep rc) acc) c = some x := by
  intro names
  induction names with
  | nil => intro acc _ hx; simp at hx
  | cons y ns ih =>
    intro acc hacc hx hrec hside
    rw [List.foldl_cons]
    by_cases hyx : y = x
    · subst hyx
      have hstep : bfmStep rc acc y = acc ++ [(c, y)] := by
        unfold bfmStep
        rw [hrec]
        unfold addEntry
        simp [hacc]
      rw [hstep]
      apply bfm_foldl_lookup_preserve
      have : acc ++ [(c, y)] = acc ++ (c, y) :: [] := rfl
      rw [this]
      exact lookupCmap_append_fresh hacc
    · have hx' : x ∈ ns := by
        rcases List.mem_cons.mp hx with h | h
        · exact absurd h.symm hyx
        · exact h
      have hside' : ∀ z ∈ ns, z ≠ x → ∀ c', recoverUni rc z = some c' → c' ≠ c :=
        fun z hz => hside z (List.mem_cons_of_mem y hz)
      cases hrecy : recoverUni rc y with
      | none =>
        have hstep : bfmStep rc acc y = acc := by unfold bfmStep; rw [hrecy]
        rw [hstep]
        exact ih acc hacc hx' hrec hside'
      | some cy =>
        have hcy : cy ≠ c := hside y (List.mem_cons_self y ns) hyx cy hrecy
        have hacc' : hasKey (bfmStep rc acc y) c = false := by
          unfold bfmStep
          rw [hrecy]
          unfold addEntry
          by_cases hk : hasKey acc cy
          · simpa [hk] using hacc
          · simp only [if_neg hk]
            rw [hasKey_append_singleton]
            simp [hacc, hcy]
        exact ih (bfmStep rc acc y) hacc' hx' hrec hside'

theorem hasKey_false_not_mem_keys {m : List (Nat × String)} {c : Nat}
    (h : hasKey m c = false) : c ∉ m.map Prod.fst := by
  intro hc
  obtain ⟨p, hp, hpc⟩ := List.mem_map.mp hc
  exact (hasKey_false_iff.mp h) p hp hpc

theorem bfm_foldl_keysNodup (rc : List (Nat × String)) :
    ∀ (names : List String) (acc : List (Nat × String)),
      (acc.map Prod.fst).Nodup →
      ((names.foldl (bfmStep rc) acc).map Prod.fst).Nodup := by
  intro names
  induction names with
  | nil => intro acc h; exact h
  | cons g ns ih =>
    intro acc hacc
    rw [List.foldl_cons]
    apply ih
    unfold bfmStep
    cases recoverUni rc g with
    | none => exact hacc
    | some c =>
      unfold addEntry
      by_cases hk : hasKey acc c
      · simpa [hk] using hacc
      · simp only [if_neg hk, List.map_append]
        rw [List.nodup_append]
        refine ⟨hacc, by simp, ?_⟩
        intro a ha hb
        simp only [List.map_cons, List.map_nil, List.mem_singleton] at hb
        subst hb
        exact hasKey_false_not_mem_keys (by simpa using hk) ha

theorem bfm_foldl_mem (rc : List (Nat × String)) :
    ∀ (names : List String) (acc : List (Nat × String)) (p : Nat × String),
      p ∈ names.foldl (bfmStep rc) acc → p ∈ acc ∨ p.2 ∈ names := by
  intro names
  induction names with
  | nil => intro acc p hp; exact Or.inl hp
  | cons g ns ih =>
    intro acc p hp
    rw [List.foldl_cons] at hp
    rcases ih (bfmStep rc acc g) p hp with h | h
    · unfold bfmStep at h
      cases hrec : recoverUni rc g with
      | none =>
        rw [hrec] at h
        exact Or.inl h
      | some c =>
        rw [hrec] at h
        have h2 : p ∈ addEntry acc c g := h
        unfold addEntry at h2
        by_cases hk : hasKey acc c
        · rw [if_pos hk] at h2
          exact Or.inl h2
        · rw [if_neg hk] at h2
          rcases List.mem_append.mp h2 with h3 | h3
          · exact Or.inl h3
          · simp only [List.mem_singleton] at h3
            subst h3
            exact Or.inr (List.mem_cons_self g ns)
    · exact Or.inr (List.mem_cons_of_mem g h)

theorem ucmStep_conflict {m r cf : List (Nat × String)} {p : Nat × String}
    (hk : hasKey m p.1 = true) : ucmStep (m, r, cf) p = (m, r, cf ++ [p]) := by
  unfold ucmStep
  simp [hk]

theorem ucmStep_fresh {m r cf : List (Nat × String)} {p : Nat × String}
    (hk : hasKey m p.1 = false) :
    ucmStep (m, r, cf) p = (m ++ [p], r ++ [p], cf) := by
  unfold ucmStep
  simp [hk]

theorem ucm_foldl_shape :
    ∀ (src m r cf : List (Nat × String)),
      ∃ add confl, src.foldl ucmStep (m, r, cf) = (m ++ add, r ++ add, cf ++ confl) ∧
        ∀ p ∈ add, p ∈ src := by
  intro src
  induction src with
  | nil =>
    intro m r cf
    exact ⟨[], [], by simp, by simp⟩
  | cons p ps ih =>
    intro m r cf
    rw [List.foldl_cons]
    cases hk : hasKey m p.1 with
    | true =>
      rw [ucmStep_conflict hk]
      obtain ⟨add, confl, heq, hmem⟩ := ih m r (cf ++ [p])
      refine ⟨add, [p] ++ confl, ?_, ?_⟩
      · rw [heq, List.append_assoc]
      · exact fun q hq => List.mem_cons_of_mem p (hmem q hq)
    | false =>
      rw [ucmStep_fresh hk]
      obtain ⟨add, confl, heq, hmem⟩ := ih (m ++ [p]) (r ++ [p]) cf
      refine ⟨[p] ++ add, confl, ?_, ?_⟩
      · rw [heq, List.append_assoc, List.append_assoc]
      · intro q hq
        rcases List.mem_append.mp hq with hq | hq
        · simp only [List.mem_singleton] at hq
          subst hq
          exact List.mem_cons_self q ps
        · exact List.mem_cons_of_mem p (hmem q hq)

theorem ucm_foldl_disjoint :
    ∀ (src m r cf : List (Nat × String)),
      (src.map Prod.fst).Nodup →
      (∀ p ∈ src, hasKey m p.1 = false) →
      src.foldl ucmStep (m, r, cf) = (m ++ src, r ++ src, cf) := by
  intro src
  induction src with
  | nil => intro m r cf _ _; simp
  | cons p ps ih =>
    intro m r cf hnd hdisj
    rw [List.map_cons, List.nodup_cons] at hnd
    obtain ⟨hpk, hnd'⟩ := hnd
    have hp : hasKey m p.1 = false := hdisj p (List.mem_cons_self p ps)
    rw [List.foldl_cons, ucmStep_fresh hp]
    have hdisj' : ∀ q ∈ ps, hasKey (m ++ [p]) q.1 = false := by
      intro q hq
      rw [hasKey_append_singleton]
      have h1 : hasKey m q.1 = false := hdisj q (List.mem_cons_of_mem p hq)
      have h2 : p.1 ≠ q.1 := by
        intro hc
        exact hpk (hc ▸ List.mem_map_of_mem Prod.fst hq)
      simp [h1, h2]
    rw [ih (m ++ [p]) (r ++ [p]) cf hnd' hdisj']
    simp

/-- Merging a duplicate-free-keyed source into an empty target installs
exactly the source. -/
theorem update_character_map_nil_target {src : List (Nat × String)}
    (hnd : (src.map Prod.fst).Nodup) :
    update_character_map src [] = (src, src, []) := by
  unfold update_character_map
  have := ucm_foldl_disjoint src [] [] [] hnd (fun p _ => rfl)
  simpa using this

/-- The installed character map of a full rebuild is the forward map
recomputed over the whole current glyph order. -/
theorem rebuild_cmap_true_cmap (f : Font) :
    ((rebuild_cmap f true).1).cmap = buildForwardMap f.cmap f.glyph_order := by
  have h : update_character_map (buildForwardMap f.cmap f.glyph_order) [] =
      (buildForwardMap f.cmap f.glyph_order, buildForwardMap f.cmap f.glyph_order, []) :=
    update_character_map_nil_target
      (bfm_foldl_keysNodup f.cmap f.glyph_order [] (by simp))
  show (update_character_map (buildForwardMap f.cmap f.glyph_order) []).1 =
    buildForwardMap f.cmap f.glyph_order
  rw [h]

theorem rebuild_cmap_glyph_order (f : Font) (b : Bool) :
    ((rebuild_cmap f b).1).glyph_order = f.glyph_order := rfl

/-! ### Claim C2: the two rebuild modes -/

/-- C2: `rebuild_cmap` with `remap_all = False` keeps every existing
code-point-to-name association unchanged and only adds mappings for
glyphs with no cmap entry before the call, while `remap_all = True`
recomputes the entire forward map from the glyph names in the current
glyph order and installs it fresh, independent of the previous map. -/
theorem c2_rebuild_cmap_modes (f : Font) :
    (∀ c g, lookupCmap f.cmap c = some g →
      lookupCmap ((rebuild_cmap f false).1).cmap c = some g) ∧
    (∀ p ∈ (rebuild_cmap f false).2, p.2 ∈ (get_mapped_and_unmapped_glyphs f).2) ∧
    ((rebuild_cmap f true).1).cmap = buildForwardMap f.cmap f.glyph_order := by
  obtain ⟨add, confl, heq, hmem⟩ :=
    ucm_foldl_shape (buildForwardMap f.cmap (get_mapped_and_unmapped_glyphs f).2)
      f.cmap [] []
  refine ⟨?_, ?_, rebuild_cmap_true_cmap f⟩
  · intro c g hcg
    show lookupCmap
      (update_character_map
        (buildForwardMap f.cmap (get_mapped_and_unmapped_glyphs f).2) f.cmap).1 c = some g
    unfold update_character_map
    rw [heq]
    exact lookupCmap_append_left hcg
  · intro p hp
    have hp' : p ∈
        (update_character_map
          (buildForwardMap f.cmap (get_mapped_and_unmapped_glyphs f).2) f.cmap).2.1 := hp
    unfold update_character_map at hp'
    rw [heq] at hp'
    simp only [List.nil_append] at hp'
    rcases bfm_foldl_mem f.cmap (get_mapped_and_unmapped_glyphs f).2 [] p (hmem p hp')
      with h | h
    · simp at h
    · exact h

/-- Witness for C2 on a concrete font: the mapped glyph `A` keeps its
association after an incremental rebuild, and the rebuild only remaps the
previously unmapped glyph `uni0042`. -/
theorem c2_rebuild_cmap_modes_w :
    lookupCmap ((rebuild_cmap
      ⟨[".notdef", "A", "uni0042"], [(0x41, "A")], [], [], false⟩ false).1).cmap
      0x41 = some "A" ∧
    (0x42, "uni0042").2 ∈ (get_mapped_and_unmapped_glyphs
      ⟨[".notdef", "A", "uni0042"], [(0x41, "A")], [], [], false⟩).2 :=
  ⟨(c2_rebuild_cmap_modes ⟨[".notdef", "A", "uni0042"], [(0x41, "A")], [], [], false⟩).1
      0x41 "A" (by decide),
   (c2_rebuild_cmap_modes ⟨[".notdef", "A", "uni0042"], [(0x41, "A")], [], [], false⟩).2.1
      (0x42, "uni0042") (by decide)⟩

/-! ### Transfer of reversed-cmap lookups across a rename -/

/-- Re-keying the cmap targets under a rename that is injective on the
glyph order does not change which code point a (renamed) glyph recovers
from the reversed cmap. -/
theorem get_uni_str_map_ren (ren : String → String) (order : List String)
    (hinj : ∀ a ∈ order, ∀ b ∈ order, ren a = ren b → a = b) :
    ∀ (m : List (Nat × String)), (∀ p ∈ m, p.2 ∈ order) → ∀ g ∈ order,
      get_uni_str (m.map (fun p => (p.1, ren p.2))) (ren g) = get_uni_str m g := by
  intro m
  induction m with
  | nil => intro _ g _; rfl
  | cons p ps ih =>
    intro hmem g hg
    have hp2 : p.2 ∈ order := hmem p (List.mem_cons_self p ps)
    rw [List.map_cons]
    unfold get_uni_str
    by_cases hpg : p.2 = g
    · simp [hpg]
    · have hrg : ((p.1, ren p.2) : Nat × String).2 ≠ ren g := by
        intro hc
        exact hpg (hinj p.2 hp2 g hg hc)
      rw [if_neg hrg, if_neg hpg]
      exact ih (fun q hq => hmem q (List.mem_cons_of_mem p hq)) g hg

/-! ### Claim C1: character-map preservation under a targeted rename -/

/-- C1 (amended): after a successful `rename_glyph` on a font whose cmap
maps each glyph from at most one code point and where no glyph name of
the renamed order implies — by `uniXXXX` / `uXXXXX` parsing or the
standard table — a code point already bound in the cmap, the code point
of the renamed glyph maps to the new name and every other mapped code
point keeps its glyph. -/
theorem c1_amended (f : Font) (old_name new_name : String)
    (hkeys : (f.cmap.map Prod.fst).Nodup)
    (htgt : ∀ p ∈ f.cmap, p.2 ∈ f.glyph_order)
    (hinj : ∀ p ∈ f.cmap, ∀ q ∈ f.cmap, p.2 = q.2 → p.1 = q.1)
    (hold : old_name ∈ f.glyph_order) (hnew : new_name ∉ f.glyph_order)
    (hnoc : ∀ g ∈ f.glyph_order, (∀ p ∈ f.cmap, p.2 ≠ g) →
      ∀ c ∈ f.cmap.map Prod.fst,
        parseOrAgl (renameFun old_name new_name g) ≠ some c) :
    (∀ c, lookupCmap f.cmap c = some old_name →
      lookupCmap ((rename_glyph f old_name new_name).1).cmap c = some new_name) ∧
    (∀ c g, g ≠ old_name → lookupCmap f.cmap c = some g →
      lookupCmap ((rename_glyph f old_name new_name).1).cmap c = some g) := by
  have hres : (rename_glyph f old_name new_name).1 =
      (rebuild_cmap (applyRenameMap (renameFun old_name new_name) f) true).1 := by
    unfold rename_glyph
    rw [if_neg (not_not_intro hold), if_neg hnew]
  have hren_inj : ∀ a ∈ f.glyph_order, ∀ b ∈ f.glyph_order,
      renameFun old_name new_name a = renameFun old_name new_name b → a = b :=
    renameFun_inj_on hnew
  have hcore : ∀ c g, lookupCmap f.cmap c = some g →
      lookupCmap (buildForwardMap
        (applyRenameMap (renameFun old_name new_name) f).cmap
        (applyRenameMap (renameFun old_name new_name) f).glyph_order) c =
      some (renameFun old_name new_name g) := by
    intro c g hcg
    have hmem_cg : (c, g) ∈ f.cmap := lookupCmap_mem hcg
    have hg_ord : g ∈ f.glyph_order := htgt (c, g) hmem_cg
    have huni : get_uni_str f.cmap g = some c := get_uni_str_unique hinj hmem_cg
    have htrans : get_uni_str
        (applyRenameMap (renameFun old_name new_name) f).cmap
        (renameFun old_name new_name g) = some c := by
      have := get_uni_str_map_ren (renameFun old_name new_name) f.glyph_order
        hren_inj f.cmap htgt g hg_ord
      rw [huni] at this
      exact this
    have hrec : recoverUni (applyRenameMap (renameFun old_name new_name) f).cmap
        (renameFun old_name new_name g) = some c := by
      unfold recoverUni
      rw [htrans]
    have hx : renameFun old_name new_name g ∈
        (applyRenameMap (renameFun old_name new_name) f).glyph_order :=
      List.mem_map_of_mem (renameFun old_name new_name) hg_ord
    have hside : ∀ y ∈ (applyRenameMap (renameFun old_name new_name) f).glyph_order,
        y ≠ renameFun old_name new_name g → ∀ c',
        recoverUni (applyRenameMap (renameFun old_name new_name) f).cmap y = some c' →
        c' ≠ c := by
      intro y hy hyx c' hc' hcc
      obtain ⟨g0, hg0, hyg0⟩ :=
        List.mem_map.mp (hy : y ∈ f.glyph_order.map (renameFun old_name new_name))
      subst hyg0
      cases huni0 : get_uni_str f.cmap g0 with
      | some c0 =>
        have htrans0 : get_uni_str
            (applyRenameMap (renameFun old_name new_name) f).cmap
            (renameFun old_name new_name g0) = some c0 := by
          have := get_uni_str_map_ren (renameFun old_name new_name) f.glyph_order
            hren_inj f.cmap htgt g0 hg0
          rw [huni0] at this
          exact this
        have hrec0 : recoverUni (applyRenameMap (renameFun old_name new_name) f).cmap
            (renameFun old_name new_name g0) = some c0 := by
          unfold recoverUni
          rw [htrans0]
        rw [hrec0] at hc'
        injection hc' with hc2
        have hmem0 : (c, g0) ∈ f.cmap := by
          have := get_uni_str_mem huni0
          rwa [hc2, hcc] at this
        have hgg : g0 = g := keysNodup_val_unique hkeys hmem0 hmem_cg
        exact hyx (congrArg (renameFun old_name new_name) hgg)
      | none =>
        have hunm : ∀ p ∈ f.cmap, p.2 ≠ g0 := get_uni_str_eq_none.mp huni0
        have htrans0 : get_uni_str
            (applyRenameMap (renameFun old_name new_name) f).cmap
            (renameFun old_name new_name g0) = none := by
          have := get_uni_str_map_ren (renameFun old_name new_name) f.glyph_order
            hren_inj f.cmap htgt g0 hg0
          rw [huni0] at this
          exact this
        have hpa : parseOrAgl (renameFun old_name new_name g0) = some c := by
          unfold recoverUni at hc'
          rw [htrans0] at hc'
          have hc2 : parseOrAgl (renameFun old_name new_name g0) = some c' := hc'
          rw [hc2, hcc]
        exact hnoc g0 hg0 hunm c (List.mem_map_of_mem Prod.fst hmem_cg) hpa
    exact bfm_foldl_lookup (applyRenameMap (renameFun old_name new_name) f).cmap c
      (renameFun old_name new_name g)
      (applyRenameMap (renameFun old_name new_name) f).glyph_order [] rfl hx hrec hside
  constructor
  · intro c hc
    have h := hcore c old_name hc
    rw [hres, rebuild_cmap_true_cmap]
    simpa [renameFun] using h
  · intro c g hg hc
    have h := hcore c g hc
    rw [hres, rebuild_cmap_true_cmap]
    simpa [renameFun, hg] using h

/-- C1 counterexample: on the font with glyph order
`[.notdef, uni0041, B]` and cmap `{0x41: B}`, the rename `B → Bvariant`
succeeds, yet in the rebuilt character map `0x41` maps to `uni0041`
(whose name implies that code point) and not to `Bvariant` — the claim
fails without further hypotheses. -/
theorem c1_counterexample :
    (rename_glyph ⟨[".notdef", "uni0041", "B"], [(0x41, "B")], [], [], false⟩
      "B" "Bvariant").2 = Except.ok true ∧
    lookupCmap ((rename_glyph ⟨[".notdef", "uni0041", "B"], [(0x41, "B")], [], [], false⟩
      "B" "Bvariant").1).cmap 0x41 = some "uni0041" ∧
    lookupCmap ((rename_glyph ⟨[".notdef", "uni0041", "B"], [(0x41, "B")], [], [], false⟩
      "B" "Bvariant").1).cmap 0x41 ≠ some "Bvariant" := by
  refine ⟨by decide, by decide, by decide⟩

/-- Witness for C1 (amended) on the specification's own scenario: order
`[.notdef, A, B, space]`, cmap `{0x41: A, 0x42: B, 0x20: space}`, rename
`B → Bvariant`; `0x42` now maps to `Bvariant` and `0x41` still to `A`. -/
theorem c1_amended_w :
    lookupCmap ((rename_glyph
      ⟨[".notdef", "A", "B", "space"], [(0x41, "A"), (0x42, "B"), (0x20, "space")],
        [], [], false⟩ "B" "Bvariant").1).cmap 0x42 = some "Bvariant" ∧
    lookupCmap ((rename_glyph
      ⟨[".notdef", "A", "B", "space"], [(0x41, "A"), (0x42, "B"), (0x20, "space")],
        [], [], false⟩ "B" "Bvariant").1).cmap 0x41 = some "A" :=
  ⟨(c1_amended
      ⟨[".notdef", "A", "B", "space"], [(0x41, "A"), (0x42, "B"), (0x20, "space")],
        [], [], false⟩ "B" "Bvariant"
      (by decide) (by decide) (by decide) (by decide) (by decide) (by decide)).1
      0x42 (by decide),
   (c1_amended
      ⟨[".notdef", "A", "B", "space"], [(0x41, "A"), (0x42, "B"), (0x20, "space")],
        [], [], false⟩ "B" "Bvariant"
      (by decide) (by decide) (by decide) (by decide) (by decide) (by decide)).2
      0x41 "A" (by decide) (by decide)⟩

/-! ### Claim C4: precondition errors of `rename_glyph` -/

/-- C4: `rename_glyph` fails with the not-found error when the old name
is absent and with the name-collision error when the new name is already
present, and in both cases the returned font state is the unchanged input
font (the error is raised before any mutation). -/
theorem c4_rename_glyph_errors (f : Font) (old_name new_name : String) :
    (old_name ∉ f.glyph_order →
      rename_glyph f old_name new_name =
        (f, .error (.notFound old_name))) ∧
    (old_name ∈ f.glyph_order → new_name ∈ f.glyph_order →
      rename_glyph f old_name new_name =
        (f, .error (.alreadyExists new_name))) := by
  constructor
  · intro h
    unfold rename_glyph
    rw [if_pos h]
  · intro h1 h2
    unfold rename_glyph
    rw [if_neg (not_not_intro h1), if_pos h2]

/-- Witness for C4: both failure modes on a concrete font, with the font
returned untouched. -/
theorem c4_rename_glyph_errors_w :
    rename_glyph ⟨[".notdef", "A"], [(0x41, "A")], [], [], false⟩ "Q" "Z" =
      (⟨[".notdef", "A"], [(0x41, "A")], [], [], false⟩,
        .error (.notFound "Q")) ∧
    rename_glyph ⟨[".notdef", "A"], [(0x41, "A")], [], [], false⟩ "A" ".notdef" =
      (⟨[".notdef", "A"], [(0x41, "A")], [], [], false⟩,
        .error (.alreadyExists ".notdef")) :=
  ⟨(c4_rename_glyph_errors ⟨[".notdef", "A"], [(0x41, "A")], [], [], false⟩ "Q" "Z").1
      (by decide),
   (c4_rename_glyph_errors ⟨[".notdef", "A"], [(0x41, "A")], [], [], false⟩
      "A" ".notdef").2 (by decide) (by decide)⟩

/-! ### Claim C10: a successful `rename_glyph` always reports a change -/

/-- C10: `rename_glyph` never returns `False` without raising: the
preconditions force the substituted order to differ from the old one, so
a successful call always reports a change. -/
theorem c10_rename_glyph_never_false (f : Font) (old_name new_name : String) :
    (rename_glyph f old_name new_name).2 ≠ Except.ok false := by
  unfold rename_glyph
  by_cases h1 : old_name ∉ f.glyph_order
  · rw [if_pos h1]
    simp
  · rw [if_neg h1]
    by_cases h2 : new_name ∈ f.glyph_order
    · rw [if_pos h2]
      simp
    · rw [if_neg h2]
      show Except.ok (decide (f.glyph_order.map (renameFun old_name new_name) ≠
        f.glyph_order)) ≠ Except.ok false
      intro hc
      injection hc with hc
      rw [decide_eq_false_iff_not, not_not] at hc
      exact map_renameFun_ne (not_not.mp h1) h2 hc

/-- Witness for C10 at a concrete successful rename. -/
theorem c10_rename_glyph_never_false_w :
    (rename_glyph ⟨[".notdef", "A"], [(0x41, "A")], [], [], false⟩ "A" "Z").2 ≠
      Except.ok false :=
  c10_rename_glyph_never_false ⟨[".notdef", "A"], [(0x41, "A")], [], [], false⟩ "A" "Z"

/-! ### Claim C7: `.notdef` is pinned to index 0 by `sort_glyphs` -/

/-- C7: whenever `.notdef` is present before the sort (and the external
sort oracle, which only reorders the names, keeps it in its output), the
glyph order after `sort_glyphs` has `.notdef` at index 0, whether or not
the call reports a change, for every oracle (hence every sort key). -/
theorem c7_sort_notdef_first (f : Font) (oracle : List String → List String)
    (h1 : ".notdef" ∈ f.glyph_order) (h2 : ".notdef" ∈ oracle f.glyph_order) :
    ((sort_glyphs f oracle).1).glyph_order.head? = some ".notdef" := by
  unfold sort_glyphs
  simp only [if_pos h2]
  by_cases heq : f.glyph_order = ".notdef" :: (oracle f.glyph_order).erase ".notdef"
  · rw [if_pos heq]
    rw [heq]
    rfl
  · rw [if_neg heq]
    by_cases hps : f.is_ps
    · simp [hps]
    · simp [hps]

/-- Witness for C7 at a concrete font and reversing oracle. -/
theorem c7_sort_notdef_first_w :
    ((sort_glyphs ⟨[".notdef", "B", "A"], [], [], [], false⟩
      (fun l => l.reverse)).1).glyph_order.head? = some ".notdef" :=
  c7_sort_notdef_first ⟨[".notdef", "B", "A"], [], [], [], false⟩
    (fun l => l.reverse) (by decide) (by decide)

/-! ### Claim C8: CFF charset and charstrings re-keyed in the same call -/

/-- C8: a `sort_glyphs` call on a PostScript-flavored font that reorders
the glyphs re-keys the CFF charset and the charstring storage order to
the new glyph order within the same call — neither is left in the
pre-sort order. -/
theorem c8_sort_ps_rekeys (f : Font) (oracle : List String → List String)
    (hps : f.is_ps = true) (hch : (sort_glyphs f oracle).2 = true) :
    ((sort_glyphs f oracle).1).charset = ((sort_glyphs f oracle).1).glyph_order ∧
    ((sort_glyphs f oracle).1).char_strings.map Prod.fst =
      ((sort_glyphs f oracle).1).glyph_order := by
  unfold sort_glyphs at hch ⊢
  by_cases heq : f.glyph_order =
      (if ".notdef" ∈ oracle f.glyph_order
       then ".notdef" :: (oracle f.glyph_order).erase ".notdef"
       else oracle f.glyph_order)
  · rw [if_pos heq] at hch
    simp at hch
  · rw [if_neg heq]
    have hcomp : (Prod.fst ∘ fun k : String => (k, lookupCS f.char_strings k)) = id := by
      funext k
      rfl
    constructor
    · simp [hps]
    · simp [hps, List.map_map, hcomp]

/-- Witness for C8 on a concrete PostScript-flavored font whose sort
changes the order. -/
theorem c8_sort_ps_rekeys_w :
    ((sort_glyphs ⟨[".notdef", "B", "A"], [], [".notdef", "B", "A"],
      [(".notdef", some 0), ("B", some 1), ("A", some 2)], true⟩
      (fun l => l.reverse)).1).charset =
    ((sort_glyphs ⟨[".notdef", "B", "A"], [], [".notdef", "B", "A"],
      [(".notdef", some 0), ("B", some 1), ("A", some 2)], true⟩
      (fun l => l.reverse)).1).glyph_order :=
  (c8_sort_ps_rekeys ⟨[".notdef", "B", "A"], [], [".notdef", "B", "A"],
    [(".notdef", some 0), ("B", some 1), ("A", some 2)], true⟩
    (fun l => l.reverse) (by decide) (by decide)).1

/-! ### Claim C9: `remove_glyphs` normalization and result -/

theorem idsToNames_mem {order : List String} {ids : List Int} {g : String} :
    g ∈ idsToNames order ids ↔
      ∃ i ∈ ids, 0 ≤ i ∧ i.toNat < order.length ∧ order.get? i.toNat = some g := by
  unfold idsToNames
  rw [List.mem_filterMap]
  constructor
  · rintro ⟨i, hi, hfn⟩
    by_cases hc : 0 ≤ i ∧ i.toNat < order.length
    · rw [if_pos hc] at hfn
      exact ⟨i, hi, hc.1, hc.2, hfn⟩
    · rw [if_neg hc] at hfn
      cases hfn
  · rintro ⟨i, hi, h1, h2, h3⟩
    exact ⟨i, hi, by rw [if_pos ⟨h1, h2⟩]; exact h3⟩

/-- C9 (amended): when at least one of the two inputs is non-empty,
`remove_glyphs` converts exactly the in-range ids to names through the
current order (ignoring out-of-range ids), unions them with the explicit
names, returns the empty set without invoking the subsetting primitive
when that union is empty, and otherwise installs the subsetter's order
and returns exactly the difference between the pre-call and post-call
glyph orders.  When both inputs are empty it raises an error instead of
returning the empty set. -/
theorem c9_amended (f : Font) (names : List String) (ids : List Int)
    (subsetter : List String → List String)
    (hne : ¬(names = [] ∧ ids = [])) :
    (∀ g, g ∈ names ++ idsToNames f.glyph_order ids ↔
      (g ∈ names ∨ ∃ i ∈ ids, 0 ≤ i ∧ i.toNat < f.glyph_order.length ∧
        f.glyph_order.get? i.toNat = some g)) ∧
    (names ++ idsToNames f.glyph_order ids = [] →
      remove_glyphs f names ids subsetter = (f, .ok [])) ∧
    (names ++ idsToNames f.glyph_order ids ≠ [] →
      ((remove_glyphs f names ids subsetter).1).glyph_order =
        subsetter (f.glyph_order.filter
          (fun g => decide (g ∉ names ++ idsToNames f.glyph_order ids))) ∧
      (remove_glyphs f names ids subsetter).2 =
        .ok (f.glyph_order.filter
          (fun g => decide (g ∉
            ((remove_glyphs f names ids subsetter).1).glyph_order)))) := by
  refine ⟨?_, ?_, ?_⟩
  · intro g
    rw [List.mem_append, idsToNames_mem]
  · intro hemp
    unfold remove_glyphs
    rw [if_neg hne, if_pos hemp]
  · intro hnemp
    have hr : remove_glyphs f names ids subsetter =
        ({ f with glyph_order := subsetter (f.glyph_order.filter
            (fun g => decide (g ∉ names ++ idsToNames f.glyph_order ids))) },
         .ok (f.glyph_order.filter (fun g => decide (g ∉
            subsetter (f.glyph_order.filter
              (fun g => decide (g ∉ names ++ idsToNames f.glyph_order ids))))))) := by
      unfold remove_glyphs
      rw [if_neg hne, if_neg hnemp]
    constructor
    · rw [hr]
    · rw [hr]

/-- C9 counterexample: with both inputs empty the union is empty, yet the
call raises the no-glyphs-provided error rather than returning the empty
set. -/
theorem c9_counterexample :
    (remove_glyphs ⟨[".notdef", "A"], [(0x41, "A")], [], [], false⟩ [] []
      (fun l => l)).2 = Except.error GlyphOpError.noGlyphsProvided ∧
    (remove_glyphs ⟨[".notdef", "A"], [(0x41, "A")], [], [], false⟩ [] []
      (fun l => l)).2 ≠ Except.ok [] := by
  exact ⟨by decide, by decide⟩

/-- Witness for C9 (amended): an id-only request whose single id is out
of range yields the empty result without touching the font. -/
theorem c9_amended_w :
    remove_glyphs ⟨[".notdef", "A", "B"], [], [], [], false⟩ [] [(5 : Int)]
      (fun l => l) = (⟨[".notdef", "A", "B"], [], [], [], false⟩, .ok []) :=
  (c9_amended ⟨[".notdef", "A", "B"], [], [], [], false⟩ [] [(5 : Int)]
    (fun l => l) (by decide)).2.1 (by decide)

/-! ### Lemmas on `set_production_names` -/

theorem prodNameChoice_none (f : Font) (g : String)
    (h : get_uni_str f.cmap g = none) : prodNameChoice f g = g := by
  unfold prodNameChoice
  rw [h]
  rfl

theorem prodNameChoice_some_skip (f : Font) (g : String) (c : Nat)
    (h : get_uni_str f.cmap g = some c)
    (hcond : prodNameFromUni c = g ∨ prodNameFromUni c ∈ f.glyph_order) :
    prodNameChoice f g = g := by
  unfold prodNameChoice
  rw [h]
  show (if prodNameFromUni c = g ∨ prodNameFromUni c ∈ f.glyph_order
      then g else prodNameFromUni c) = g
  rw [if_pos hcond]

theorem prodNameChoice_some_ren (f : Font) (g : String) (c : Nat)
    (h : get_uni_str f.cmap g = some c)
    (hcond : ¬(prodNameFromUni c = g ∨ prodNameFromUni c ∈ f.glyph_order)) :
    prodNameChoice f g = prodNameFromUni c := by
  unfold prodNameChoice
  rw [h]
  show (if prodNameFromUni c = g ∨ prodNameFromUni c ∈ f.glyph_order
      then g else prodNameFromUni c) = prodNameFromUni c
  rw [if_neg hcond]

/-- The per-glyph skip policy: a glyph keeps its name exactly when no
Unicode value is found, the computed production name equals the current
name, or the computed name collides with an existing name in the order. -/
theorem prodNameChoice_eq_self_iff (f : Font) (g : String) :
    prodNameChoice f g = g ↔
      (get_uni_str f.cmap g = none ∨
       production_name_for (get_uni_str f.cmap g) = some g ∨
       ∃ p ∈ f.glyph_order, production_name_for (get_uni_str f.cmap g) = some p) := by
  cases h : get_uni_str f.cmap g with
  | none =>
    constructor
    · intro _
      exact Or.inl rfl
    · intro _
      exact prodNameChoice_none f g h
  | some c =>
    have hpf : production_name_for (some c) = some (prodNameFromUni c) := rfl
    by_cases hcond : prodNameFromUni c = g ∨ prodNameFromUni c ∈ f.glyph_order
    · constructor
      · intro _
        rcases hcond with hc | hc
        · refine Or.inr (Or.inl ?_)
          rw [hpf, hc]
        · exact Or.inr (Or.inr ⟨prodNameFromUni c, hc, hpf⟩)
      · intro _
        exact prodNameChoice_some_skip f g c h hcond
    · rw [prodNameChoice_some_ren f g c h hcond]
      constructor
      · intro hcontra
        exact absurd (Or.inl hcontra) hcond
      · rintro (h2 | h2 | ⟨p, hp, hp2⟩)
        · simp at h2
        · rw [hpf] at h2
          exact Option.some.inj h2
        · rw [hpf] at hp2
          have h3 : prodNameFromUni c = p := Option.some.inj hp2
          rw [← h3] at hp
          exact absurd (Or.inr hp) hcond

theorem prodNameChoice_ne (f : Font) (g : String)
    (h : prodNameChoice f g ≠ g) :
    prodNameChoice f g ∉ f.glyph_order ∧
      ∃ c, get_uni_str f.cmap g = some c ∧ prodNameChoice f g = prodNameFromUni c := by
  cases huni : get_uni_str f.cmap g with
  | none => exact absurd (prodNameChoice_none f g huni) h
  | some c =>
    by_cases hcond : prodNameFromUni c = g ∨ prodNameFromUni c ∈ f.glyph_order
    · exact absurd (prodNameChoice_some_skip f g c huni hcond) h
    · have hval := prodNameChoice_some_ren f g c huni hcond
      constructor
      · rw [hval]
        intro hc
        exact hcond (Or.inr hc)
      · exact ⟨c, rfl, hval⟩

/-- The renamed-pairs list is empty exactly when every glyph keeps its
name. -/
theorem renamedGlyphsOf_nil_iff (f : Font) :
    renamedGlyphsOf f = [] ↔ ∀ g ∈ f.glyph_order, prodNameChoice f g = g := by
  unfold renamedGlyphsOf
  rw [List.filterMap_eq_nil_iff]
  constructor
  · intro h g hg
    have hfm := h g hg
    by_cases hcg : prodNameChoice f g = g
    · exact hcg
    · rw [if_neg hcg] at hfm
      cases hfm
  · intro h g hg
    rw [if_pos (h g hg)]

/-- The glyph order produced by `set_production_names` is the pointwise
production-name choice over the old order. -/
theorem set_production_names_order (f : Font) (hnd : f.glyph_order.Nodup) :
    ((set_production_names f).1).glyph_order =
      f.glyph_order.map (prodNameChoice f) := by
  unfold set_production_names
  by_cases hren : renamedGlyphsOf f = []
  · rw [if_pos hren]
    have hall : ∀ g ∈ f.glyph_order, prodNameChoice f g = g :=
      (renamedGlyphsOf_nil_iff f).mp hren
    have : f.glyph_order.map (prodNameChoice f) = f.glyph_order.map id :=
      List.map_congr_left hall
    rw [this, List.map_id]
  · rw [if_neg hren]
    rw [rebuild_cmap_glyph_order]
    show f.glyph_order.map
      (renameOf f.glyph_order (f.glyph_order.map (prodNameChoice f))) =
      f.glyph_order.map (prodNameChoice f)
    exact map_renameOf hnd (by simp)

/-- When nothing qualifies for renaming, `set_production_names` leaves
the font untouched. -/
theorem set_production_names_nil (f : Font)
    (h : (set_production_names f).2 = []) : (set_production_names f).1 = f := by
  unfold set_production_names at h ⊢
  by_cases hren : renamedGlyphsOf f = []
  · rw [if_pos hren]
  · rw [if_neg hren] at h
    exact absurd h hren

/-! ### Claim C3: uniqueness of the glyph order after renames -/

/-- C3 (amended): a successful `rename_glyph` and a `set_production_names`
call preserve the duplicate-freeness of the glyph order (on a well-formed
font), and `rename_glyphs` does so whenever the supplied new order is
itself duplicate-free and of matching length; `rename_glyphs` performs no
collision check, so colliding new names are applied rather than
rejected. -/
theorem c3_amended :
    (∀ (f : Font) (old_name new_name : String) (b : Bool), f.glyph_order.Nodup →
      (rename_glyph f old_name new_name).2 = .ok b →
      ((rename_glyph f old_name new_name).1).glyph_order.Nodup) ∧
    (∀ (f : Font) (new_order : List String), f.glyph_order.Nodup →
      new_order.Nodup → new_order.length = f.glyph_order.length →
      ((rename_glyphs f new_order).1).glyph_order.Nodup) ∧
    (∀ f : Font, f.glyph_order.Nodup → (f.cmap.map Prod.fst).Nodup →
      ((set_production_names f).1).glyph_order.Nodup) := by
  refine ⟨?_, ?_, ?_⟩
  · intro f old_name new_name b hnd hok
    unfold rename_glyph at hok ⊢
    by_cases h1 : old_name ∉ f.glyph_order
    · rw [if_pos h1] at hok
      cases hok
    · rw [if_neg h1] at hok ⊢
      by_cases h2 : new_name ∈ f.glyph_order
      · rw [if_pos h2] at hok
        cases hok
      · rw [if_neg h2]
        show (f.glyph_order.map (renameFun old_name new_name)).Nodup
        exact List.Nodup.map_on (renameFun_inj_on h2) hnd
  · intro f new_order hnd hnodup hlen
    unfold rename_glyphs
    by_cases heq : new_order = f.glyph_order
    · rw [if_pos heq]
      exact hnd
    · rw [if_neg heq]
      show (f.glyph_order.map (renameOf f.glyph_order new_order)).Nodup
      rw [map_renameOf hnd hlen.symm]
      exact hnodup
  · intro f hnd hkeys
    rw [set_production_names_order f hnd]
    refine List.Nodup.map_on ?_ hnd
    intro g1 hg1 g2 hg2 hch
    by_cases h1 : prodNameChoice f g1 = g1
    · by_cases h2 : prodNameChoice f g2 = g2
      · rw [h1, h2] at hch
        exact hch
      · obtain ⟨hnot2, c2, hc2, hp2⟩ := prodNameChoice_ne f g2 h2
        exfalso
        apply hnot2
        rw [← hch, h1]
        exact hg1
    · obtain ⟨hnot1, c1, hc1, hp1⟩ := prodNameChoice_ne f g1 h1
      by_cases h2 : prodNameChoice f g2 = g2
      · exfalso
        apply hnot1
        rw [hch, h2]
        exact hg2
      · obtain ⟨hnot2, c2, hc2, hp2⟩ := prodNameChoice_ne f g2 h2
        have hpp : prodNameFromUni c1 = prodNameFromUni c2 := by
          rw [← hp1, ← hp2, hch]
        have hc12 : c1 = c2 := prodNameFromUni_injective hpp
        have m1 : (c2, g1) ∈ f.cmap := hc12 ▸ get_uni_str_mem hc1
        have m2 : (c2, g2) ∈ f.cmap := get_uni_str_mem hc2
        exact keysNodup_val_unique hkeys m1 m2

/-- C3 counterexample: `rename_glyphs` applied with colliding new names
succeeds (reports a change, raises nothing) and leaves a glyph order with
duplicate names — the collision is not rejected before mutation. -/
theorem c3_counterexample :
    (rename_glyphs ⟨[".notdef", "A", "B"], [], [], [], false⟩
      ["notdef2", "X", "X"]).2 = true ∧
    ((rename_glyphs ⟨[".notdef", "A", "B"], [], [], [], false⟩
      ["notdef2", "X", "X"]).1).glyph_order = ["notdef2", "X", "X"] ∧
    ¬ ((rename_glyphs ⟨[".notdef", "A", "B"], [], [], [], false⟩
      ["notdef2", "X", "X"]).1).glyph_order.Nodup := by
  exact ⟨by decide, by decide, by decide⟩

/-- Witness for C3 (amended) at concrete inputs for all three
operations. -/
theorem c3_amended_w :
    ((rename_glyph ⟨[".notdef", "A"], [(0x41, "A")], [], [], false⟩
      "A" "Z").1).glyph_order.Nodup ∧
    ((rename_glyphs ⟨[".notdef", "A"], [(0x41, "A")], [], [], false⟩
      ["x", "y"]).1).glyph_order.Nodup ∧
    ((set_production_names ⟨[".notdef", "A"], [(0x41, "A")], [], [],
      false⟩).1).glyph_order.Nodup :=
  ⟨c3_amended.1 ⟨[".notdef", "A"], [(0x41, "A")], [], [], false⟩ "A" "Z" true
      (by decide) (by decide),
   c3_amended.2.1 ⟨[".notdef", "A"], [(0x41, "A")], [], [], false⟩ ["x", "y"]
      (by decide) (by decide) (by decide),
   c3_amended.2.2 ⟨[".notdef", "A"], [(0x41, "A")], [], [], false⟩
      (by decide) (by decide)⟩

/-! ### Claim C5: the skip policy of `set_production_names` -/

/-- C5: `set_production_names` keeps a glyph's original name in its
original position exactly when no Unicode value is found for it, or the
computed production name equals its current name, or the computed name
collides with an existing name in the order (otherwise the position holds
the computed production name); and when no glyph qualifies for renaming
(the returned list is empty) the font is not mutated at all. -/
theorem c5_set_production_names (f : Font) (hnd : f.glyph_order.Nodup) :
    (∀ i, (hi : i < f.glyph_order.length) →
      (((set_production_names f).1).glyph_order.get? i =
          some (f.glyph_order.get ⟨i, hi⟩) ↔
        (get_uni_str f.cmap (f.glyph_order.get ⟨i, hi⟩) = none ∨
         production_name_for (get_uni_str f.cmap (f.glyph_order.get ⟨i, hi⟩)) =
           some (f.glyph_order.get ⟨i, hi⟩) ∨
         ∃ p ∈ f.glyph_order,
           production_name_for (get_uni_str f.cmap (f.glyph_order.get ⟨i, hi⟩)) =
             some p))) ∧
    ((set_production_names f).2 = [] → (set_production_names f).1 = f) := by
  constructor
  · intro i hi
    rw [set_production_names_order f hnd]
    have hget : (f.glyph_order.map (prodNameChoice f)).get? i =
        some (prodNameChoice f (f.glyph_order.get ⟨i, hi⟩)) := by
      rw [List.get?_map, List.get?_eq_get hi]
      rfl
    rw [hget]
    constructor
    · intro h
      exact (prodNameChoice_eq_self_iff f _).mp (Option.some.inj h)
    · intro h
      rw [(prodNameChoice_eq_self_iff f _).mpr h]
  · exact set_production_names_nil f

/-- Witness for C5: on a concrete font, glyph `A` (already canonically
named) is kept in place, while glyph `Bee` (mapped from `0x42`) is not
kept — it is renamed to the production name `B`. -/
theorem c5_set_production_names_w :
    ((set_production_names
      ⟨[".notdef", "Bee", "A"], [(0x42, "Bee"), (0x41, "A")], [], [],
        false⟩).1).glyph_order.get? 2 = some "A" ∧
    ¬(((set_production_names
      ⟨[".notdef", "Bee", "A"], [(0x42, "Bee"), (0x41, "A")], [], [],
        false⟩).1).glyph_order.get? 1 = some "Bee") :=
  ⟨((c5_set_production_names
      ⟨[".notdef", "Bee", "A"], [(0x42, "Bee"), (0x41, "A")], [], [], false⟩
      (by decide)).1 2 (by decide)).mpr (by decide),
   fun h => absurd
    (((c5_set_production_names
      ⟨[".notdef", "Bee", "A"], [(0x42, "Bee"), (0x41, "A")], [], [], false⟩
      (by decide)).1 1 (by decide)).mp h) (by decide)⟩
